import Mathlib

/-!
Verification of `src/pybenqaseio/qase_io.py` (PyBenQaseIO).

The Python code is shallowly embedded: Python `dict`s become association
lists with insertion-order-preserving update (`dset`), deletion (`ddel`)
and first-match lookup (`dget`); raised exceptions become `Except.error`;
the remote Qase API is an explicit parameter (for single-call wrappers the
outcome of the one remote call, for the pagination and synchronizer
routines an explicit store that the embedded calls read and extend).
-/

set_option linter.unusedVariables false

/-! ## Python dict primitives

A Python `dict` is modelled as an association list with unique keys in
insertion order.  `dget` is `d[k]` (first match), `dmem` is `k in d`,
`dset` is `d[k] = v` (replace in place if present, append otherwise) and
`ddel` is `del d[k]` / `d.pop(k, default)`.
-/

def dget {α : Type} : List (String × α) → String → Option α
  | [], _ => none
  | p :: d, k => if p.1 = k then some p.2 else dget d k

def dmem {α : Type} : List (String × α) → String → Bool
  | [], _ => false
  | p :: d, k => if p.1 = k then true else dmem d k

def dset {α : Type} : List (String × α) → String → α → List (String × α)
  | [], k, v => [(k, v)]
  | p :: d, k, v => if p.1 = k then (k, v) :: d else p :: dset d k v

def ddel {α : Type} : List (String × α) → String → List (String × α)
  | [], _ => []
  | p :: d, k => if p.1 = k then ddel d k else p :: ddel d k

def dkeys {α : Type} (d : List (String × α)) : List String := d.map Prod.fst

/-! ## Paginated Fetch (`QaseIO.get_all_instances`, qase_io.py lines 106-112)

The remote "list" operation is modelled by `pageRequest`: the remote store
holds the full entity list, a request with `limit`/`offset` returns the
corresponding window together with the reported total (`res.result.filtered`).
`get_all_instances` mirrors the recursion of the source; the `fuel`
argument only bounds the recursion depth (Python recursion needs no such
bound syntactically; `none` is never returned when the fuel exceeds the
number of remaining entities and the page size is at least 1).  The second
component of the result counts the requests issued.
-/

structure ListResult (α : Type) where
  entities : List α
  filtered : Nat
  deriving DecidableEq

def pageRequest {α : Type} (store : List α) (limit offset : Nat) : ListResult α :=
  ⟨(store.drop offset).take limit, store.length⟩

def get_all_instances {α : Type} (store : List α) (limit offset : Nat) :
    Nat → Option (List α × Nat)
  | 0 => none
  | fuel + 1 =>
    let res := pageRequest store limit offset
    if limit + offset < res.filtered then
      (get_all_instances store limit (offset + limit) fuel).map
        (fun rest => (res.entities ++ rest.1, rest.2 + 1))
    else some (res.entities, 1)

/-- The number of requests `get_all_instances` issues starting at a given
offset against a total of `total` entities with page size `limit`. -/
def requestCount (total limit offset : Nat) : Nat :=
  if total ≤ offset then 1 else (total - offset + limit - 1) / limit

/-! ## Config Store (`QaseIO.QaseConfig.add_run_id` / `add_run_title`,
qase_io.py lines 86-96)

The operations mutate `config_obj['testops']['run']`, a JSON object; the
embedding acts on that run section directly, as a dict of JSON values.
`add_run_id` does `run['id'] = int(run_id); run.pop('title', ''); run['complete'] = False`
and `add_run_title` does `run['title'] = run_title; run.pop('id', 0); run['complete'] = True`
(the final `write()` persists the document and does not change it). -/

inductive JVal where
  | jnum : Int → JVal
  | jstr : String → JVal
  | jbool : Bool → JVal
  deriving DecidableEq

abbrev JDict := List (String × JVal)

def add_run_id (run : JDict) (run_id : Int) : JDict :=
  dset (ddel (dset run "id" (JVal.jnum run_id)) "title") "complete" (JVal.jbool false)

def add_run_title (run : JDict) (run_title : String) : JDict :=
  dset (ddel (dset run "title" (JVal.jstr run_title)) "id") "complete" (JVal.jbool true)

/-! ## Case Field Editor (qase_io.py lines 451-528)

A test case's parameter map (`origin.result.params.to_dict()`) is a dict
from keys to lists of string values.  The per-case transformations of
`qase_add_params_to_cases`, `qase_remove_unwanted_params_from_cases` and
`replace_params_in_cases` are embedded below; the surrounding per-case
fetch/update loop supplies the fetched map and writes back the returned one.

The removal loop evaluates `unwanted_value in origin_params[unwanted_key]`
for each listed value; when an earlier removal emptied and deleted the key,
that subscript raises `KeyError`, modelled as `Except.error "KeyError"`.
`list.remove(x)` removes the first occurrence (`List.erase`), and
`list(set(a + b))` deduplicates the concatenation (`List.dedup`; the order
Python produces is unspecified, and every theorem below only depends on the
result's membership).
-/

abbrev Params := List (String × List String)

/-- `v in origin_params.get(k, [])`: does value `v` occur under key `k`? -/
def occursB (d : Params) (k v : String) : Bool :=
  match dget d k with
  | some lst => decide (v ∈ lst)
  | none => false

/-- One iteration of `for unwanted_value in unwanted_values` (lines 465-470):
evaluate `unwanted_value in origin_params[unwanted_key]` (raising `KeyError`
when the key was deleted by an earlier iteration), remove the first
occurrence, and delete the key when its list becomes empty. -/
def removeOne (k : String) (acc : Params × Bool) (v : String) :
    Except String (Params × Bool) :=
  match dget acc.1 k with
  | none => Except.error "KeyError"
  | some lst =>
    if v ∈ lst then
      let remaining := lst.erase v
      Except.ok (if remaining = [] then ddel acc.1 k else dset acc.1 k remaining, true)
    else Except.ok acc

/-- One iteration of `for unwanted_key, unwanted_values in unwanted_params.items()`
(lines 463-470): guarded by `if unwanted_key in origin_params`. -/
def removeKeyStep (acc : Params × Bool) (kv : String × List String) :
    Except String (Params × Bool) :=
  if dmem acc.1 kv.1 then kv.2.foldlM (removeOne kv.1) acc
  else Except.ok acc

/-- The removal loop of `qase_remove_unwanted_params_from_cases` (and the
identical loop of `replace_params_in_cases`): returns the updated parameter
map together with the `unwanted_found` / `add_wanted_params` flag. -/
def removeUnwanted (d : Params) (unwanted : Params) : Except String (Params × Bool) :=
  unwanted.foldlM removeKeyStep (d, false)

/-- One iteration of the add loop (lines 486-490 / 521-525): absent keys are
set verbatim, present keys become `list(set(existing + new))`. -/
def addStep (d : Params) (kv : String × List String) : Params :=
  if dmem d kv.1 then dset d kv.1 ((dget d kv.1).getD [] ++ kv.2).dedup
  else dset d kv.1 kv.2

/-- The per-case transformation of `qase_add_params_to_cases`. -/
def addParams (d : Params) (ps : Params) : Params := ps.foldl addStep d

/-- The per-case transformation of `replace_params_in_cases`: run the removal
loop; write an update (`some`) with the wanted params merged in only when the
`add_wanted_params` flag was set, otherwise write nothing (`none`). -/
def replaceCase (d : Params) (unwanted wanted : Params) : Except String (Option Params) :=
  Except.bind (removeUnwanted d unwanted) (fun pr =>
    if pr.2 then Except.ok (some (addParams pr.1 wanted)) else Except.ok none)

/-- The value list stored under `k` (empty when `k` is absent). -/
def vals (d : Params) (k : String) : List String := (dget d k).getD []

/-! ## Suite-title normalization (qase_io.py lines 184-190 and 205-210)

The loop computes
`' '.join(suite.title.lower().split('(', 1)[0].strip().replace('-', '').split())`
and compares it with `parent_suite.lower()` (resp. `suite_name.lower()`),
taking the first match and `0` when none matches.  `str.split()` (split on
whitespace runs, dropping empty tokens) is `pySplit`, `' '.join` is
`joinSpace`, `split('(', 1)[0]` is `beforeParen`, `strip()` is
`String.trim` and `replace('-', '')` is `removeHyphens`.
-/

def splitWSAux : List Char → List Char → List (List Char)
  | [], acc => if acc = [] then [] else [acc.reverse]
  | c :: cs, acc =>
    if c.isWhitespace then
      if acc = [] then splitWSAux cs []
      else acc.reverse :: splitWSAux cs []
    else splitWSAux cs (c :: acc)

def pySplit (s : String) : List String := (splitWSAux s.toList []).map String.mk

def joinSpace : List String → String
  | [] => ""
  | [t] => t
  | t :: ts => t ++ " " ++ joinSpace ts

/-- `str.lower()` for the ASCII range (Qase suite titles and pytest-derived
names; `String.toLower` itself is not kernel-reducible). -/
def pyLowerChar (c : Char) : Char :=
  if 'A' ≤ c ∧ c ≤ 'Z' then Char.ofNat (c.toNat + 32) else c

def pyLower (s : String) : String := String.mk (s.toList.map pyLowerChar)

/-- `str.strip()`: drop leading and trailing whitespace. -/
def pyStrip (s : String) : String :=
  String.mk (((s.toList.dropWhile Char.isWhitespace).reverse.dropWhile
    Char.isWhitespace).reverse)

def beforeParen (s : String) : String :=
  String.mk (s.toList.takeWhile (fun c => c != '('))

def removeHyphens (s : String) : String :=
  String.mk (s.toList.filter (fun c => c != '-'))

def cleanSuiteTitle (t : String) : String :=
  joinSpace (pySplit (removeHyphens (pyStrip (beforeParen (pyLower t)))))

structure QSuite where
  sid : Nat
  title : String
  parentId : Option Nat
  deriving DecidableEq

/-- The title-matching loop: the first remote suite whose cleaned title
equals the lower-cased local name wins (`break`); `0` when none matches. -/
def findSuiteId : List QSuite → String → Nat
  | [], _ => 0
  | s :: rest, name =>
    if cleanSuiteTitle s.title = pyLower name then s.sid else findSuiteId rest name

/-- The normalization of suite titles exactly as the specification words it
(lower-case, strip a trailing parenthetical, strip hyphens, collapse
whitespace), for comparison with the code: claim C6 asserts the code applies
this to both sides of the comparison. -/
def specNormalize (s : String) : String :=
  joinSpace (pySplit (removeHyphens (pyStrip (beforeParen (pyLower s)))))

/-! ## Milestone/Run/Case CRUD wrappers (qase_io.py lines 114-126, 290-436,
554-578)

Each wrapper performs one remote call; the call's outcome is the `remote`
argument (`Except.ok` a response value, `Except.error` an `ApiException`).
A wrapper whose body wraps the call in `try/except ApiException` turns a
failure into a logged message and an implicit `None`; `create_milestone`
(lines 411-420) has no `try/except` and lets the exception out. -/

def get_test_case {α : Type} (case_id : Nat) (remote : Except String α) :
    Except String (Option α) :=
  if case_id = 0 then Except.error "AssertionError: case_id is required"
  else
    match remote with
    | Except.ok r => Except.ok (some r)
    | Except.error _ => Except.ok none

def create_qase_test_run {α : Type} (title : String) (remote : Except String α) :
    Except String (Option α) :=
  match remote with
  | Except.ok r => Except.ok (some r)
  | Except.error _ => Except.ok none

def complete_qase_test_run {α : Type} (run_id : Nat) (remote : Except String α) :
    Except String (Option α) :=
  match remote with
  | Except.ok r => Except.ok (some r)
  | Except.error _ => Except.ok none

def delete_a_test_case {α : Type} (case_id : Nat) (remote : Except String α) :
    Except String (Option α) :=
  match remote with
  | Except.ok r => Except.ok (some r)
  | Except.error _ => Except.ok none

def update_a_test_case {α : Type} (case_id : Nat) (update_dict : Params)
    (remote : Except String α) : Except String (Option α) :=
  match remote with
  | Except.ok r => Except.ok (some r)
  | Except.error _ => Except.ok none

def create_test_case {α : Type} (payload_dict : Params) (remote : Except String α) :
    Except String (Option α) :=
  match remote with
  | Except.ok r => Except.ok (some r)
  | Except.error _ => Except.ok none

/-- `create_qase_suite` returns `api_response.result.id` on success, `None`
after a logged `ApiException`. -/
def create_qase_suite (suite_name : String) (parent_id : Option Nat)
    (remote : Except String Nat) : Except String (Option Nat) :=
  match remote with
  | Except.ok newId => Except.ok (some newId)
  | Except.error _ => Except.ok none

def update_suite {α : Type} (suite_id : Nat) (remote : Except String α) :
    Except String (Option α) :=
  match remote with
  | Except.ok r => Except.ok (some r)
  | Except.error _ => Except.ok none

/-- `create_milestone` (lines 411-420): no `try/except`; returns
`res.result.id` and propagates any `ApiException` from the call. -/
def create_milestone (milestone_title : String) (remote : Except String Nat) :
    Except String Nat :=
  match remote with
  | Except.ok newId => Except.ok newId
  | Except.error e => Except.error e

/-- `get_run` (lines 422-436): the body is `try: if run_id: return get_run(...)`
with `except ApiException` logging.  The second result component counts the
remote calls performed. -/
def get_run {α : Type} (run_id : Int) (remote : Except String α) :
    Except String (Option α × Nat) :=
  if run_id = 0 then Except.ok (none, 0)
  else
    match remote with
    | Except.ok r => Except.ok (some r, 1)
    | Except.error _ => Except.ok (none, 1)

/-! ## Suite Synchronizer (`update_test_suites_from_pytest`, qase_io.py
lines 152-235)

Inputs: the local pytest file index (per file a `"Suite Name"` string and
test cases with an optional `Qase ID`, `0` modelling the falsy default),
the remote suite store (with a fresh-id counter; remote calls are modelled
as succeeding), the remote case list, the `known_suites` override map and
the flags.  The state carries the local variables of the routine
(`qase_suites` snapshot, `qase_new_dict`, mutated `known_suites`) and logs
of the remote side effects: `created` records every `create_qase_suite`
call (name and returned id), `moved` every `update_a_test_case` call
issued for a case move, `warned` the cases only flagged.

Python errors of the routine are `Except.error`: `name_split[1]` on a
single-token name (`IndexError`), `known_suites[parent_suite]` on line 198
when the parent was matched remotely but is not in `known_suites`
(`KeyError`), and the `assert_parent_suite` assertion.
-/

structure TFCase where
  qaseId : Nat
  deriving DecidableEq

structure TestFile where
  suiteName : String
  testCases : List TFCase
  deriving DecidableEq

structure QCase where
  cid : Nat
  suiteId : Option Nat
  deriving DecidableEq

structure LeafEntry where
  leafId : Nat
  cases : List Nat
  deriving DecidableEq

structure ParentEntry where
  pid : Nat
  leaves : List (String × LeafEntry)
  deriving DecidableEq

structure SyncConfig where
  moveCases : Bool
  rootParentSuite : Option Nat
  assertParentSuite : Bool
  deriving DecidableEq

structure SyncState where
  remoteSuites : List QSuite
  nextId : Nat
  qaseSuites : List QSuite
  qaseCases : List QCase
  knownSuites : List (String × Nat)
  qaseNewDict : List (String × ParentEntry)
  created : List (String × Nat)
  moved : List (Nat × Nat)
  warned : List Nat
  deriving DecidableEq

/-- `create_qase_suite(suite_name=name, parent_id=...)` with a successful
remote call: the store appends a suite with the next fresh id (the
`parent_id` argument is kept only when truthy, per `if parent_id:`), and the
call is logged in `created`. -/
def createSuite (st : SyncState) (name : String) (parentId : Option Nat) :
    Nat × SyncState :=
  let newId := st.nextId
  (newId,
    { st with
        remoteSuites := st.remoteSuites ++
          [⟨newId, name, if parentId.getD 0 = 0 then none else parentId⟩],
        nextId := newId + 1,
        created := st.created ++ [(name, newId)] })

/-- Lines 180-199: resolve the parent suite when it is not yet in
`qase_new_dict`.  In assert mode the parent must be in `known_suites`
(hard assertion); otherwise the remote snapshot is scanned by normalized
title, a miss creates the suite, refreshes `qase_suites` and records the id
in `known_suites` — and line 198 then reads `known_suites[parent_suite]`
unconditionally, a `KeyError` when the parent was matched remotely but
never seeded. -/
def processParent (cfg : SyncConfig) (st : SyncState) (parentSuite : String) :
    Except String SyncState :=
  if dmem st.qaseNewDict parentSuite then Except.ok st
  else if cfg.assertParentSuite then
    match dget st.knownSuites parentSuite with
    | some pid =>
      Except.ok { st with qaseNewDict := dset st.qaseNewDict parentSuite ⟨pid, []⟩ }
    | none => Except.error "AssertionError: parent suite not found in known suites"
  else
    let sid := findSuiteId st.qaseSuites parentSuite
    let st2 :=
      if sid = 0 then
        let pr := createSuite st parentSuite cfg.rootParentSuite
        { pr.2 with
            qaseSuites := pr.2.remoteSuites,
            knownSuites := dset pr.2.knownSuites parentSuite pr.1 }
      else st
    match dget st2.knownSuites parentSuite with
    | some pid =>
      Except.ok { st2 with qaseNewDict := dset st2.qaseNewDict parentSuite ⟨pid, []⟩ }
    | none => Except.error "KeyError: parent_suite not in known_suites"

/-- Lines 200-216: resolve the leaf suite when it is not yet recorded under
the parent: `known_suites` first, then the normalized-title scan of the
snapshot, then creation (under the parent entry's id) with a snapshot
refresh; finally record `{'cases': [], 'id': suite_id}`. -/
def processLeaf (st : SyncState) (parentSuite suiteName : String) :
    Except String SyncState :=
  match dget st.qaseNewDict parentSuite with
  | none => Except.error "KeyError: parent_suite not in qase_new_dict"
  | some pe =>
    if dmem pe.leaves suiteName then Except.ok st
    else
      let sid0 :=
        if dmem st.knownSuites suiteName then (dget st.knownSuites suiteName).getD 0
        else findSuiteId st.qaseSuites suiteName
      let pr :=
        if sid0 = 0 then
          let pr0 := createSuite st suiteName (some pe.pid)
          (pr0.1, { pr0.2 with qaseSuites := pr0.2.remoteSuites })
        else (sid0, st)
      Except.ok
        { pr.2 with
            qaseNewDict :=
              dset pr.2.qaseNewDict parentSuite
                ⟨pe.pid, dset pe.leaves suiteName ⟨pr.1, []⟩⟩ }

/-- Lines 217-233: for a test case with a truthy Qase ID, append it to the
leaf's case list, then look up the first remote case with that id and move
(`update_a_test_case`) or warn when its suite assignment differs. -/
def processCase (cfg : SyncConfig) (parentSuite suiteName : String)
    (st : SyncState) (tc : TFCase) : Except String SyncState :=
  if tc.qaseId = 0 then Except.ok st
  else
    match dget st.qaseNewDict parentSuite with
    | none => Except.error "KeyError: parent_suite not in qase_new_dict"
    | some pe =>
      match dget pe.leaves suiteName with
      | none => Except.error "KeyError: suite_name not in qase_new_dict"
      | some le =>
        let le2 : LeafEntry := ⟨le.leafId, le.cases ++ [tc.qaseId]⟩
        let st2 :=
          { st with
              qaseNewDict :=
                dset st.qaseNewDict parentSuite ⟨pe.pid, dset pe.leaves suiteName le2⟩ }
        match st2.qaseCases.find? (fun c => c.cid == tc.qaseId) with
        | none => Except.ok st2
        | some qc =>
          if qc.suiteId ≠ some le2.leafId then
            if cfg.moveCases then
              Except.ok { st2 with moved := st2.moved ++ [(tc.qaseId, le2.leafId)] }
            else Except.ok { st2 with warned := st2.warned ++ [tc.qaseId] }
          else Except.ok st2

/-- Lines 175-233, one iteration of `for test_file in full_index`:
`name_split = test_file.get('Suite Name', '').split()`; an empty split skips
the file, `name_split[1]` raises `IndexError` on a single token, otherwise
the parent suite is token 1 and the leaf suite `' '.join(name_split[1:])`. -/
def processFile (cfg : SyncConfig) (st : SyncState) (tf : TestFile) :
    Except String SyncState :=
  match pySplit tf.suiteName with
  | [] => Except.ok st
  | [_] => Except.error "IndexError: list index out of range"
  | _ :: t1 :: rest =>
    Except.bind (processParent cfg st t1) (fun st1 =>
      Except.bind (processLeaf st1 t1 (joinSpace (t1 :: rest))) (fun st2 =>
        tf.testCases.foldlM (processCase cfg t1 (joinSpace (t1 :: rest))) st2))

/-- The state at the start of the routine: `qase_suites` and `qase_cases`
freshly fetched, `qase_new_dict = {}`, `known_suites` as supplied. -/
def initSyncState (remoteSuites : List QSuite) (nextId : Nat)
    (qaseCases : List QCase) (knownSuites : List (String × Nat)) : SyncState :=
  ⟨remoteSuites, nextId, remoteSuites, qaseCases, knownSuites, [], [], [], []⟩

def update_test_suites_from_pytest (cfg : SyncConfig) (files : List TestFile)
    (remoteSuites : List QSuite) (nextId : Nat) (qaseCases : List QCase)
    (knownSuites : List (String × Nat)) : Except String SyncState :=
  files.foldlM (processFile cfg) (initSyncState remoteSuites nextId qaseCases knownSuites)

/-! ## The synchronizer invariant for claim C8 -/

/-- A parent-created suite name is memoized in `known_suites` and as a
`qase_new_dict` parent entry carrying exactly the created id. -/
def parentMemo (st : SyncState) (n : String) (i : Nat) : Prop :=
  dget st.knownSuites n = some i ∧
  ∃ e : ParentEntry, dget st.qaseNewDict n = some e ∧ e.pid = i

/-- A leaf-created suite name is memoized under its parent's entry with
exactly the created id. -/
def leafMemo (st : SyncState) (q n : String) (i : Nat) : Prop :=
  ∃ (e : ParentEntry) (le : LeafEntry),
    dget st.qaseNewDict q = some e ∧ dget e.leaves n = some le ∧ le.leafId = i

/-- Every create call is memoized: either as a parent, or as a leaf under
the head token of its own name. -/
def createdMemo (st : SyncState) (n : String) (i : Nat) : Prop :=
  0 < i ∧
  (parentMemo st n i ∨ ∃ q rest, pySplit n = q :: rest ∧ leafMemo st q n i)

/-- The run invariant: the `qase_suites` snapshot equals the remote suite
list (every creation is followed by a refresh), ids are positive, no suite
name is created twice, and every created suite is memoized under its
created id. -/
def SyncInv (st : SyncState) : Prop :=
  st.qaseSuites = st.remoteSuites ∧
  0 < st.nextId ∧
  (st.created.map Prod.fst).Nodup ∧
  ∀ p ∈ st.created, createdMemo st p.1 p.2

/-! ## Token lemmas: `str.split()` produces nonempty whitespace-free tokens,
and `' '.join` round-trips through `split()` on such tokens. -/

def charJoin : List (List Char) → List Char
  | [] => []
  | [t] => t
  | t :: ts => t ++ ' ' :: charJoin ts

/-! ## Theorems -/

/-! ## Dict lemmas -/

theorem dget_dset_self {α : Type} (d : List (String × α)) (k : String) (v : α) :
    dget (dset d k v) k = some v := by
  induction d with
  | nil => simp [dget, dset]
  | cons p d ih =>
    by_cases h : p.1 = k <;> simp [dget, dset, h, ih]

theorem dget_dset_ne {α : Type} (d : List (String × α)) (k k' : String) (v : α)
    (h : k' ≠ k) : dget (dset d k v) k' = dget d k' := by
  have hk : k ≠ k' := Ne.symm h
  induction d with
  | nil => simp [dget, dset, hk]
  | cons p d ih =>
    by_cases hp : p.1 = k
    · simp [dget, dset, hp, hk, ih]
    · by_cases hq : p.1 = k' <;> simp [dget, dset, hp, hq, h, ih]

theorem dget_ddel_self {α : Type} (d : List (String × α)) (k : String) :
    dget (ddel d k) k = none := by
  induction d with
  | nil => simp [dget, ddel]
  | cons p d ih =>
    by_cases h : p.1 = k <;> simp [dget, ddel, h, ih]

theorem dget_ddel_ne {α : Type} (d : List (String × α)) (k k' : String)
    (h : k' ≠ k) : dget (ddel d k) k' = dget d k' := by
  have hk : k ≠ k' := Ne.symm h
  induction d with
  | nil => simp [dget, ddel]
  | cons p d ih =>
    by_cases hp : p.1 = k
    · simp [dget, ddel, hp, hk, ih]
    · by_cases hq : p.1 = k' <;> simp [dget, ddel, hp, hq, h, ih]

theorem dmem_iff_dget {α : Type} (d : List (String × α)) (k : String) :
    dmem d k = true ↔ ∃ v, dget d k = some v := by
  induction d with
  | nil => simp [dmem, dget]
  | cons p d ih =>
    by_cases h : p.1 = k <;> simp [dmem, dget, h, ih]

theorem dmem_dset_self {α : Type} (d : List (String × α)) (k : String) (v : α) :
    dmem (dset d k v) k = true := by
  rw [dmem_iff_dget]; exact ⟨v, dget_dset_self d k v⟩

theorem dmem_dset {α : Type} (d : List (String × α)) (k k' : String) (v : α) :
    dmem (dset d k v) k' = true ↔ (k' = k ∨ dmem d k' = true) := by
  by_cases h : k' = k
  · subst h; simp [dmem_dset_self]
  · rw [dmem_iff_dget, dmem_iff_dget, dget_dset_ne d k k' v h]
    simp [h]

theorem dkeys_dset_of_not_mem {α : Type} (d : List (String × α)) (k : String) (v : α)
    (h : dmem d k = false) : dkeys (dset d k v) = dkeys d ++ [k] := by
  induction d with
  | nil => simp [dset, dkeys]
  | cons p d ih =>
    by_cases hp : p.1 = k
    · simp [dmem, hp] at h
    · simp [dmem, hp] at h
      simp [dset, hp, dkeys] at ih ⊢
      exact ih h

theorem dkeys_dset_of_mem {α : Type} (d : List (String × α)) (k : String) (v : α)
    (h : dmem d k = true) : dkeys (dset d k v) = dkeys d := by
  induction d with
  | nil => simp [dmem] at h
  | cons p d ih =>
    by_cases hp : p.1 = k
    · simp [dset, hp, dkeys]
    · simp [dmem, hp] at h
      simp [dset, hp, dkeys] at ih ⊢
      exact ih h

/-! ## Theorems: C1 (pagination) -/

theorem get_all_instances_aux {α : Type} (store : List α) (P : Nat) (hP : 1 ≤ P) :
    ∀ fuel offset, store.length - offset < fuel →
      get_all_instances store P offset fuel =
        some (store.drop offset, requestCount store.length P offset) := by
  intro fuel
  induction fuel with
  | zero => intro offset h; omega
  | succ fuel ih =>
    intro offset h
    simp only [get_all_instances, pageRequest]
    by_cases hrec : P + offset < store.length
    · have hlt : store.length - (offset + P) < fuel := by omega
      rw [ih (offset + P) hlt, if_pos hrec]
      simp only [Option.map_some']
      have hlist : List.take P (List.drop offset store) ++ List.drop (offset + P) store =
          List.drop offset store := by
        have hd : List.drop (offset + P) store = List.drop P (List.drop offset store) := by
          rw [List.drop_drop]
        rw [hd, List.take_append_drop]
      have hcount : requestCount store.length P (offset + P) + 1 =
          requestCount store.length P offset := by
        have h1 : ¬ store.length ≤ offset := by omega
        have h2 : ¬ store.length ≤ offset + P := by omega
        simp only [requestCount, if_neg h1, if_neg h2]
        have e1 : store.length - offset + P - 1 = (store.length - offset - 1) + P := by omega
        have e2 : store.length - (offset + P) + P - 1 = store.length - offset - 1 := by omega
        rw [e1, e2, Nat.add_div_right _ (by omega : 0 < P)]
      rw [hlist, hcount]
    · rw [if_neg hrec]
      have htake : List.take P (List.drop offset store) = List.drop offset store := by
        apply List.take_of_length_le
        rw [List.length_drop]
        omega
      have hcount : requestCount store.length P offset = 1 := by
        by_cases hoff : store.length ≤ offset
        · simp [requestCount, hoff]
        · have h1 : store.length - offset + P - 1 = (store.length - offset - 1) + P := by omega
          have h2 : store.length - offset - 1 < P := by omega
          simp only [requestCount, if_neg hoff]
          rw [h1, Nat.add_div_right _ (by omega : 0 < P), Nat.div_eq_of_lt h2]
      rw [htake, hcount]

/-- Claim C1: for a remote list operation reporting a total of `N` entities,
`get_all_instances` called with page size `P ≥ 1` at offset `0` returns all
`N` entities in page order using exactly `⌈N/P⌉` requests, and for `N = 0`
it returns the empty list after exactly one request (no recursion). -/
theorem get_all_instances_complete {α : Type} (store : List α) (P : Nat) (hP : 1 ≤ P) :
    get_all_instances store P 0 (store.length + 1) =
      some (store, if store.length = 0 then 1 else (store.length + P - 1) / P) := by
  rw [get_all_instances_aux store P hP (store.length + 1) 0 (by omega)]
  simp only [List.drop_zero, Option.some.injEq, Prod.mk.injEq, true_and]
  by_cases h : store.length = 0
  · simp [requestCount, h]
  · have : ¬ store.length ≤ 0 := by omega
    simp [requestCount, this, h]

/-- Witness for C1 at a concrete input: 3 entities with page size 2 are
returned whole in 2 = ⌈3/2⌉ requests. -/
theorem get_all_instances_complete_witness :
    1 ≤ 2 ∧
      get_all_instances [10, 20, 30] 2 0 ([10, 20, 30].length + 1) =
        some ([10, 20, 30],
          if [10, 20, 30].length = 0 then 1 else ([10, 20, 30].length + 2 - 1) / 2) :=
  ⟨by decide, get_all_instances_complete [10, 20, 30] 2 (by decide)⟩

/-- Claim C2: the Config Store run section holds a run id or a run title but
never both.  In any state, `add_run_id i` yields `run.id = i`, no
`run.title` key and `run.complete = false`; `add_run_title t` yields
`run.title = t`, no `run.id` key and `run.complete = true`. -/
theorem add_run_id_title_exclusive (run : JDict) (i : Int) (t : String) :
    dget (add_run_id run i) "id" = some (JVal.jnum i) ∧
    dget (add_run_id run i) "title" = none ∧
    dget (add_run_id run i) "complete" = some (JVal.jbool false) ∧
    dget (add_run_title run t) "title" = some (JVal.jstr t) ∧
    dget (add_run_title run t) "id" = none ∧
    dget (add_run_title run t) "complete" = some (JVal.jbool true) := by
  unfold add_run_id add_run_title
  refine ⟨?_, ?_, ?_, ?_, ?_, ?_⟩
  · rw [dget_dset_ne _ _ _ _ (by decide), dget_ddel_ne _ _ _ (by decide),
      dget_dset_self]
  · rw [dget_dset_ne _ _ _ _ (by decide), dget_ddel_self]
  · rw [dget_dset_self]
  · rw [dget_dset_ne _ _ _ _ (by decide), dget_ddel_ne _ _ _ (by decide),
      dget_dset_self]
  · rw [dget_dset_ne _ _ _ _ (by decide), dget_ddel_self]
  · rw [dget_dset_self]

/-! ## Lemmas for the Case Field Editor -/

theorem dget_eq_none_of_not_mem {α : Type} (d : List (String × α)) (k : String)
    (h : dmem d k = false) : dget d k = none := by
  cases hg : dget d k with
  | none => rfl
  | some v =>
    have : dmem d k = true := (dmem_iff_dget d k).mpr ⟨v, hg⟩
    rw [this] at h
    cases h

theorem dmem_iff_keys {α : Type} (d : List (String × α)) (k : String) :
    dmem d k = true ↔ k ∈ dkeys d := by
  induction d with
  | nil => simp [dmem, dkeys]
  | cons p d ih =>
    by_cases h : p.1 = k
    · simp [dmem, h, dkeys]
    · simp only [dmem, h, if_false, dkeys, List.map_cons, List.mem_cons, ite_false]
      rw [ih]
      unfold dkeys
      constructor
      · intro hk
        exact Or.inr hk
      · intro hor
        rcases hor with he | hk
        · exact absurd he.symm h
        · exact hk

theorem vals_dset_self (d : Params) (k : String) (l : List String) :
    vals (dset d k l) k = l := by
  simp [vals, dget_dset_self]

theorem vals_dset_ne (d : Params) (k k' : String) (l : List String) (h : k' ≠ k) :
    vals (dset d k l) k' = vals d k' := by
  simp [vals, dget_dset_ne d k k' l h]

theorem addStep_mem_mono (d : Params) (kv : String × List String) (k : String)
    (h : dmem d k = true) : dmem (addStep d kv) k = true := by
  unfold addStep
  by_cases hm : dmem d kv.1 = true
  · rw [if_pos hm]
    exact (dmem_dset _ _ _ _).mpr (Or.inr h)
  · rw [if_neg hm]
    exact (dmem_dset _ _ _ _).mpr (Or.inr h)

theorem addStep_mem_self (d : Params) (kv : String × List String) :
    dmem (addStep d kv) kv.1 = true := by
  unfold addStep
  by_cases hm : dmem d kv.1 = true
  · rw [if_pos hm]
    exact dmem_dset_self _ _ _
  · rw [if_neg hm]
    exact dmem_dset_self _ _ _

theorem addStep_vals_mono (d : Params) (kv : String × List String) (k v : String)
    (h : v ∈ vals d k) : v ∈ vals (addStep d kv) k := by
  unfold addStep
  by_cases hk : k = kv.1
  · subst hk
    by_cases hm : dmem d kv.1 = true
    · rw [if_pos hm, vals_dset_self]
      simp only [List.mem_dedup, List.mem_append]
      left
      exact h
    · exfalso
      have hnone : dget d kv.1 = none :=
        dget_eq_none_of_not_mem d kv.1 (Bool.not_eq_true _ ▸ hm)
      simp [vals, hnone] at h
  · by_cases hm : dmem d kv.1 = true
    · rw [if_pos hm, vals_dset_ne _ _ _ _ hk]
      exact h
    · rw [if_neg hm, vals_dset_ne _ _ _ _ hk]
      exact h

theorem addStep_vals_self (d : Params) (kv : String × List String) (v : String)
    (h : v ∈ kv.2) : v ∈ vals (addStep d kv) kv.1 := by
  unfold addStep
  by_cases hm : dmem d kv.1 = true
  · rw [if_pos hm, vals_dset_self]
    simp only [List.mem_dedup, List.mem_append]
    right
    exact h
  · rw [if_neg hm, vals_dset_self]
    exact h

theorem addParams_mem_mono (ps : Params) : ∀ d k, dmem d k = true →
    dmem (addParams d ps) k = true := by
  induction ps with
  | nil => intro d k h; exact h
  | cons e ps ih =>
    intro d k h
    simp only [addParams, List.foldl_cons] at *
    exact ih (addStep d e) k (addStep_mem_mono d e k h)

theorem addParams_vals_mono (ps : Params) : ∀ d k v, v ∈ vals d k →
    v ∈ vals (addParams d ps) k := by
  induction ps with
  | nil => intro d k v h; exact h
  | cons e ps ih =>
    intro d k v h
    simp only [addParams, List.foldl_cons] at *
    exact ih (addStep d e) k v (addStep_vals_mono d e k v h)

theorem addParams_saturates (ps : Params) : ∀ d kv, kv ∈ ps →
    dmem (addParams d ps) kv.1 = true ∧ ∀ v ∈ kv.2, v ∈ vals (addParams d ps) kv.1 := by
  induction ps with
  | nil => intro d kv h; cases h
  | cons e ps ih =>
    intro d kv h
    simp only [addParams, List.foldl_cons] at *
    rcases List.mem_cons.mp h with he | hps
    · subst he
      constructor
      · exact addParams_mem_mono ps (addStep d kv) kv.1 (addStep_mem_self d kv)
      · intro v hv
        exact addParams_vals_mono ps (addStep d kv) kv.1 v (addStep_vals_self d kv v hv)
    · exact ih (addStep d e) kv hps

theorem addParams_preserves (ps : Params) : ∀ d dR,
    dkeys d = dkeys dR →
    (∀ k v, v ∈ vals d k ↔ v ∈ vals dR k) →
    (∀ kv ∈ ps, dmem dR kv.1 = true ∧ ∀ v ∈ kv.2, v ∈ vals dR kv.1) →
    dkeys (addParams d ps) = dkeys dR ∧
      ∀ k v, v ∈ vals (addParams d ps) k ↔ v ∈ vals dR k := by
  induction ps with
  | nil => intro d dR hkeys hvals hsat; exact ⟨hkeys, hvals⟩
  | cons e ps ih =>
    intro d dR hkeys hvals hsat
    have hmemR : dmem dR e.1 = true := (hsat e (List.mem_cons_self e ps)).1
    have hmemd : dmem d e.1 = true := by
      rw [dmem_iff_keys, hkeys, ← dmem_iff_keys]
      exact hmemR
    have hstep : addStep d e = dset d e.1 ((dget d e.1).getD [] ++ e.2).dedup := by
      unfold addStep
      rw [if_pos hmemd]
    simp only [addParams, List.foldl_cons]
    apply ih (addStep d e) dR
    · rw [hstep, dkeys_dset_of_mem d e.1 _ hmemd]
      exact hkeys
    · intro k v
      by_cases hk : k = e.1
      · subst hk
        rw [hstep, vals_dset_self]
        simp only [List.mem_dedup, List.mem_append]
        constructor
        · intro hor
          rcases hor with hv | hv
          · exact (hvals e.1 v).mp hv
          · exact (hsat e (List.mem_cons_self e ps)).2 v hv
        · intro hv
          left
          exact (hvals e.1 v).mpr hv
      · rw [hstep, vals_dset_ne _ _ _ _ hk]
        exact hvals k v
    · intro kv hkv
      exact hsat kv (List.mem_cons_of_mem e hkv)

/-- Claim C4: the Add operation is idempotent on the parameter map viewed as
a mapping from keys to sets of values: applying `qase_add_params_to_cases`'s
per-case transformation twice with the same params yields the same keys and
the same value sets as applying it once. -/
theorem add_params_idempotent (d ps : Params) :
    dkeys (addParams (addParams d ps) ps) = dkeys (addParams d ps) ∧
      ∀ k v, v ∈ vals (addParams (addParams d ps) ps) k ↔ v ∈ vals (addParams d ps) k :=
  addParams_preserves ps (addParams d ps) (addParams d ps) rfl (fun _ _ => Iff.rfl)
    (fun kv hkv => addParams_saturates ps d kv hkv)

/-! ## Lemmas for the removal loop -/

theorem except_bind_ok {α β : Type} (x : Except String α) (f : α → Except String β) (b : β)
    (h : x >>= f = Except.ok b) : ∃ a, x = Except.ok a ∧ f a = Except.ok b := by
  cases x with
  | error e => simp [Bind.bind, Except.bind] at h
  | ok a =>
    refine ⟨a, rfl, ?_⟩
    simpa [Bind.bind, Except.bind] using h

theorem removeOne_props (k : String) (acc : Params × Bool) (v : String) (acc2 : Params × Bool)
    (h : removeOne k acc v = Except.ok acc2) :
    (∀ k2 v2, occursB acc2.1 k2 v2 = true → occursB acc.1 k2 v2 = true) ∧
    (acc2.2 = true → acc.2 = true ∨ occursB acc.1 k v = true) := by
  unfold removeOne at h
  cases hg : dget acc.1 k with
  | none =>
    simp only [hg] at h
    cases h
  | some lst =>
    simp only [hg] at h
    by_cases hv : v ∈ lst
    · rw [if_pos hv] at h
      have hacc2 :
          (if lst.erase v = [] then ddel acc.1 k else dset acc.1 k (lst.erase v), true) =
            acc2 := Except.ok.inj h
      constructor
      · intro k2 v2 hocc
        rw [← hacc2] at hocc
        simp only at hocc
        by_cases hk2 : k2 = k
        · subst hk2
          by_cases he : lst.erase v = []
          · rw [if_pos he] at hocc
            unfold occursB at hocc
            rw [dget_ddel_self] at hocc
            cases hocc
          · rw [if_neg he] at hocc
            unfold occursB at hocc ⊢
            rw [dget_dset_self] at hocc
            rw [hg]
            simp only [decide_eq_true_eq] at hocc ⊢
            exact List.mem_of_mem_erase hocc
        · by_cases he : lst.erase v = []
          · rw [if_pos he] at hocc
            unfold occursB at hocc ⊢
            rw [dget_ddel_ne _ _ _ hk2] at hocc
            exact hocc
          · rw [if_neg he] at hocc
            unfold occursB at hocc ⊢
            rw [dget_dset_ne _ _ _ _ hk2] at hocc
            exact hocc
      · intro _
        right
        unfold occursB
        rw [hg]
        simp [hv]
    · rw [if_neg hv] at h
      have : acc = acc2 := Except.ok.inj h
      subst this
      exact ⟨fun _ _ hh => hh, fun h2 => Or.inl h2⟩

theorem removeFold_props (k : String) (vs : List String) :
    ∀ acc res, vs.foldlM (removeOne k) acc = Except.ok res →
      (∀ k2 v2, occursB res.1 k2 v2 = true → occursB acc.1 k2 v2 = true) ∧
      (res.2 = true → acc.2 = true ∨ ∃ v ∈ vs, occursB acc.1 k v = true) := by
  induction vs with
  | nil =>
    intro acc res h
    simp only [List.foldlM_nil] at h
    have : acc = res := by
      simpa [pure, Except.pure] using h
    subst this
    exact ⟨fun _ _ hh => hh, fun h2 => Or.inl h2⟩
  | cons v vs ih =>
    intro acc res h
    rw [List.foldlM_cons] at h
    obtain ⟨mid, hmid, hrest⟩ := except_bind_ok _ _ _ h
    obtain ⟨hmono1, hflag1⟩ := removeOne_props k acc v mid hmid
    obtain ⟨hmono2, hflag2⟩ := ih mid res hrest
    constructor
    · intro k2 v2 hocc
      exact hmono1 k2 v2 (hmono2 k2 v2 hocc)
    · intro hres
      rcases hflag2 hres with hmidf | hex
      · rcases hflag1 hmidf with haccf | hocc
        · exact Or.inl haccf
        · exact Or.inr ⟨v, List.mem_cons_self v vs, hocc⟩
      · obtain ⟨v2, hv2, hocc⟩ := hex
        exact Or.inr ⟨v2, List.mem_cons_of_mem v hv2, hmono1 k v2 hocc⟩

theorem removeKeyStep_props (acc : Params × Bool) (kv : String × List String)
    (acc2 : Params × Bool) (h : removeKeyStep acc kv = Except.ok acc2) :
    (∀ k2 v2, occursB acc2.1 k2 v2 = true → occursB acc.1 k2 v2 = true) ∧
    (acc2.2 = true → acc.2 = true ∨ ∃ v ∈ kv.2, occursB acc.1 kv.1 v = true) := by
  unfold removeKeyStep at h
  by_cases hm : dmem acc.1 kv.1 = true
  · rw [if_pos hm] at h
    exact removeFold_props kv.1 kv.2 acc acc2 h
  · rw [if_neg hm] at h
    have : acc = acc2 := Except.ok.inj h
    subst this
    exact ⟨fun _ _ hh => hh, fun h2 => Or.inl h2⟩

theorem removeUnwanted_fold (u : Params) :
    ∀ acc res, u.foldlM removeKeyStep acc = Except.ok res →
      (∀ k v, occursB res.1 k v = true → occursB acc.1 k v = true) ∧
      (res.2 = true → acc.2 = true ∨ ∃ kv ∈ u, ∃ v ∈ kv.2, occursB acc.1 kv.1 v = true) := by
  induction u with
  | nil =>
    intro acc res h
    simp only [List.foldlM_nil] at h
    have : acc = res := by
      simpa [pure, Except.pure] using h
    subst this
    exact ⟨fun _ _ hh => hh, fun h2 => Or.inl h2⟩
  | cons kv u ih =>
    intro acc res h
    rw [List.foldlM_cons] at h
    obtain ⟨mid, hmid, hrest⟩ := except_bind_ok _ _ _ h
    obtain ⟨hmono1, hflag1⟩ := removeKeyStep_props acc kv mid hmid
    obtain ⟨hmono2, hflag2⟩ := ih mid res hrest
    constructor
    · intro k2 v2 hocc
      exact hmono1 k2 v2 (hmono2 k2 v2 hocc)
    · intro hres
      rcases hflag2 hres with hmidf | hex
      · rcases hflag1 hmidf with haccf | hocc
        · exact Or.inl haccf
        · obtain ⟨v, hv, hocc2⟩ := hocc
          exact Or.inr ⟨kv, List.mem_cons_self kv u, v, hv, hocc2⟩
      · obtain ⟨kv2, hkv2, v2, hv2, hocc⟩ := hex
        exact Or.inr ⟨kv2, List.mem_cons_of_mem kv hkv2, v2, hv2, hmono1 kv2.1 v2 hocc⟩

theorem removeFold_nomatch (k : String) (vs : List String) (d : Params) (flag : Bool)
    (hmem : dmem d k = true) (hno : ∀ v ∈ vs, occursB d k v = false) :
    vs.foldlM (removeOne k) (d, flag) = Except.ok (d, flag) := by
  induction vs with
  | nil => simp [List.foldlM_nil, pure, Except.pure]
  | cons v vs ih =>
    rw [List.foldlM_cons]
    have hstep : removeOne k (d, flag) v = Except.ok (d, flag) := by
      unfold removeOne
      obtain ⟨lst, hg⟩ := (dmem_iff_dget d k).mp hmem
      have hb : occursB d k v = false := hno v (List.mem_cons_self v vs)
      unfold occursB at hb
      rw [hg] at hb
      have hv : v ∉ lst := by simpa using hb
      simp [hg, hv]
    rw [hstep]
    simp only [Bind.bind, Except.bind]
    exact ih (fun v2 hv2 => hno v2 (List.mem_cons_of_mem v hv2))

theorem removeUnwanted_nomatch (u : Params) (d : Params)
    (hno : ∀ kv ∈ u, ∀ v ∈ kv.2, occursB d kv.1 v = false) :
    ∀ flag, u.foldlM removeKeyStep (d, flag) = Except.ok (d, flag) := by
  induction u with
  | nil =>
    intro flag
    simp [List.foldlM_nil, pure, Except.pure]
  | cons kv u ih =>
    intro flag
    rw [List.foldlM_cons]
    have hstep : removeKeyStep (d, flag) kv = Except.ok (d, flag) := by
      unfold removeKeyStep
      by_cases hm : dmem d kv.1 = true
      · rw [if_pos hm]
        exact removeFold_nomatch kv.1 kv.2 d flag hm
          (fun v hv => hno kv (List.mem_cons_self kv u) v hv)
      · rw [if_neg hm]
    rw [hstep]
    simp only [Bind.bind, Except.bind]
    exact ih (fun kv2 hkv2 v hv => hno kv2 (List.mem_cons_of_mem kv hkv2) v hv) flag

/-- Claim C3: `replace_params_in_cases` writes no update for a case in which
none of the listed unwanted (key, value) pairs occurs (the parameter map is
left untouched even when wanted params could apply), and whenever an update
carrying the wanted params is written, at least one listed pair did occur. -/
theorem replace_params_only_when_removed (d u w : Params) :
    ((∀ kv ∈ u, ∀ v ∈ kv.2, occursB d kv.1 v = false) →
      replaceCase d u w = Except.ok none) ∧
    (∀ p, replaceCase d u w = Except.ok (some p) →
      ∃ kv ∈ u, ∃ v ∈ kv.2, occursB d kv.1 v = true) := by
  constructor
  · intro hno
    unfold replaceCase removeUnwanted
    rw [removeUnwanted_nomatch u d hno false]
    simp [Except.bind]
  · intro p hp
    unfold replaceCase at hp
    cases hru : removeUnwanted d u with
    | error e =>
      rw [hru] at hp
      simp only [Except.bind] at hp
      cases hp
    | ok pr =>
      rw [hru] at hp
      simp only [Except.bind] at hp
      by_cases hf : pr.2 = true
      · have := (removeUnwanted_fold u (d, false) pr hru).2 hf
        rcases this with h1 | h2
        · cases h1
        · exact h2
      · rw [if_neg hf] at hp
        cases hp

/-- Witness for C3 at the spec's example: params `{"os": ["mac"]}`, unwanted
`{"os": ["win"]}`, wanted `{"browser": ["chrome"]}`: nothing matches and no
update is written. -/
theorem replace_params_only_when_removed_witness :
    (∀ kv ∈ [("os", ["win"])], ∀ v ∈ kv.2,
      occursB [("os", ["mac"])] kv.1 v = false) ∧
    replaceCase [("os", ["mac"])] [("os", ["win"])] [("browser", ["chrome"])] =
      Except.ok none :=
  ⟨by decide,
    (replace_params_only_when_removed [("os", ["mac"])] [("os", ["win"])]
      [("browser", ["chrome"])]).1 (by decide)⟩

/-- Claim C5 (code bug): on a case with params `{"os": ["win"]}` and unwanted
params `{"os": ["win", "mac"]}`, the removal loop of
`qase_remove_unwanted_params_from_cases` deletes the emptied key `"os"` and
then evaluates `"mac" in origin_params["os"]`, raising an uncaught
`KeyError` instead of writing the update `{}` that the claim describes. -/
theorem remove_unwanted_keyerror_bug :
    removeUnwanted [("os", ["win"])] [("os", ["win", "mac"])] =
      Except.error "KeyError" := by
  rfl

/-! ## Theorems: C6 (suite-title normalization) -/

/-- Claim C6 counterexample: the claimed normalization applied to both sides
would make local name `"Api - Tests"` match a remote suite titled
`"Api Tests"` (their normal forms agree), but the code lower-cases the local
name only, so `findSuiteId` reports no match (`0`). -/
theorem suite_match_not_both_sides :
    specNormalize "Api - Tests" = specNormalize "Api Tests" ∧
    findSuiteId [⟨7, "Api Tests", none⟩] "Api - Tests" = 0 := by
  constructor
  · decide
  · decide

/-- Claim C6 (amended): the full normalization (lower-case, strip a trailing
parenthetical, strip hyphens, collapse whitespace) is applied to the remote
suite title only, and is compared against the merely lower-cased local
parent- or leaf-suite name; in particular a remote suite titled
`"API - Tests (v2)"` matches the local name `"api tests"` (first match wins). -/
theorem suite_match_normalizes_remote_only :
    cleanSuiteTitle "API - Tests (v2)" = "api tests" ∧
    findSuiteId [⟨9, "Other", none⟩, ⟨3, "API - Tests (v2)", none⟩] "api tests" = 3 := by
  constructor
  · decide
  · decide

/-! ## Theorems: C7, C10 (CRUD wrappers) -/

/-- Claim C7 counterexample: `create_milestone` propagates a transport/API
failure to its caller instead of catching it and returning an absent
result. -/
theorem create_milestone_propagates :
    create_milestone "M1" (Except.error "ApiException") =
      Except.error "ApiException" := rfl

/-- Claim C7 (amended): every listed CRUD wrapper except `create_milestone`
catches the failure of its single remote call, logs it and returns an
absent (`None`) result; `create_milestone` performs its call without a
`try/except` and propagates the failure. -/
theorem crud_wrappers_catch_except_create_milestone
    (e title : String) (case_id run_id suite_id case_id2 : Nat)
    (upd payload : Params) (parent : Option Nat) (ri : Int)
    (hc : case_id ≠ 0) :
    get_test_case case_id (Except.error e : Except String Nat) = Except.ok none ∧
    create_qase_test_run title (Except.error e : Except String Nat) = Except.ok none ∧
    complete_qase_test_run run_id (Except.error e : Except String Nat) = Except.ok none ∧
    delete_a_test_case case_id2 (Except.error e : Except String Nat) = Except.ok none ∧
    update_a_test_case case_id2 upd (Except.error e : Except String Nat) = Except.ok none ∧
    create_test_case payload (Except.error e : Except String Nat) = Except.ok none ∧
    create_qase_suite title parent (Except.error e) = Except.ok none ∧
    update_suite suite_id (Except.error e : Except String Nat) = Except.ok none ∧
    get_run ri (Except.error e : Except String Nat) =
      Except.ok (none, if ri = 0 then 0 else 1) ∧
    create_milestone title (Except.error e) = Except.error e := by
  refine ⟨?_, rfl, rfl, rfl, rfl, rfl, rfl, rfl, ?_, rfl⟩
  · unfold get_test_case
    rw [if_neg hc]
  · unfold get_run
    by_cases h : ri = 0
    · rw [if_pos h, if_pos h]
    · rw [if_neg h, if_neg h]

/-- Witness for the amended C7 at concrete inputs. -/
theorem crud_wrappers_catch_witness :
    (1 : Nat) ≠ 0 ∧
    (get_test_case 1 (Except.error "ApiException" : Except String Nat) = Except.ok none ∧
    create_qase_test_run "T" (Except.error "ApiException" : Except String Nat) = Except.ok none ∧
    complete_qase_test_run 2 (Except.error "ApiException" : Except String Nat) = Except.ok none ∧
    delete_a_test_case 4 (Except.error "ApiException" : Except String Nat) = Except.ok none ∧
    update_a_test_case 4 [] (Except.error "ApiException" : Except String Nat) = Except.ok none ∧
    create_test_case [] (Except.error "ApiException" : Except String Nat) = Except.ok none ∧
    create_qase_suite "T" none (Except.error "ApiException") = Except.ok none ∧
    update_suite 3 (Except.error "ApiException" : Except String Nat) = Except.ok none ∧
    get_run 5 (Except.error "ApiException" : Except String Nat) =
      Except.ok (none, if (5 : Int) = 0 then 0 else 1) ∧
    create_milestone "T" (Except.error "ApiException") = Except.error "ApiException") :=
  ⟨by decide,
    crud_wrappers_catch_except_create_milestone "ApiException" "T" 1 2 3 4 [] [] none 5
      (by decide)⟩

/-- Claim C10: `get_run` with `run_id = 0` (the default, and the only falsy
`int`) performs no remote call at all and returns an absent result,
regardless of what the remote would have answered. -/
theorem get_run_zero_no_call {α : Type} (remote : Except String α) :
    get_run 0 remote = Except.ok (none, 0) := rfl

theorem toList_append (a b : String) : (a ++ b).toList = a.toList ++ b.toList :=
  String.data_append a b

theorem splitWSAux_tokens : ∀ (l acc : List Char),
    (∀ c ∈ acc, c.isWhitespace = false) →
    ∀ t ∈ splitWSAux l acc, t ≠ [] ∧ ∀ c ∈ t, c.isWhitespace = false := by
  intro l
  induction l with
  | nil =>
    intro acc hacc t ht
    unfold splitWSAux at ht
    by_cases h : acc = []
    · rw [if_pos h] at ht
      cases ht
    · rw [if_neg h] at ht
      have heq : t = acc.reverse := List.mem_singleton.mp ht
      subst heq
      constructor
      · simpa using h
      · intro c hc
        exact hacc c (List.mem_reverse.mp hc)
  | cons c cs ih =>
    intro acc hacc t ht
    unfold splitWSAux at ht
    by_cases hws : c.isWhitespace = true
    · rw [if_pos hws] at ht
      by_cases h : acc = []
      · rw [if_pos h] at ht
        exact ih [] (by intro c2 hc2; cases hc2) t ht
      · rw [if_neg h] at ht
        rcases List.mem_cons.mp ht with heq | ht2
        · subst heq
          constructor
          · simpa using h
          · intro c2 hc2
            exact hacc c2 (List.mem_reverse.mp hc2)
        · exact ih [] (by intro c2 hc2; cases hc2) t ht2
    · rw [if_neg hws] at ht
      refine ih (c :: acc) ?_ t ht
      intro c2 hc2
      rcases List.mem_cons.mp hc2 with heq | h2
      · subst heq
        simpa using hws
      · exact hacc c2 h2

theorem splitWSAux_prepend : ∀ (t l acc : List Char),
    (∀ c ∈ t, c.isWhitespace = false) →
    splitWSAux (t ++ l) acc = splitWSAux l (t.reverse ++ acc) := by
  intro t
  induction t with
  | nil =>
    intro l acc h
    simp
  | cons c t ih =>
    intro l acc h
    have hc : c.isWhitespace = false := h c (List.mem_cons_self c t)
    have hstep : splitWSAux ((c :: t) ++ l) acc = splitWSAux (t ++ l) (c :: acc) := by
      simp only [List.cons_append, splitWSAux]
      rw [if_neg (by simp [hc])]
      rfl
    rw [hstep, ih l (c :: acc) (fun c2 hc2 => h c2 (List.mem_cons_of_mem c hc2))]
    have hacc : t.reverse ++ c :: acc = (c :: t).reverse ++ acc := by simp
    rw [hacc]

theorem joinSpace_toList : ∀ ts : List String,
    (joinSpace ts).toList = charJoin (ts.map String.toList) := by
  intro ts
  induction ts with
  | nil => rfl
  | cons t ts ih =>
    cases ts with
    | nil => rfl
    | cons t2 ts2 =>
      show (t ++ " " ++ joinSpace (t2 :: ts2)).toList =
        t.toList ++ ' ' :: charJoin ((t2 :: ts2).map String.toList)
      rw [toList_append, toList_append, ih]
      simp

theorem splitWS_charJoin : ∀ ts : List (List Char),
    (∀ t ∈ ts, t ≠ [] ∧ ∀ c ∈ t, c.isWhitespace = false) →
    splitWSAux (charJoin ts) [] = ts := by
  intro ts
  induction ts with
  | nil =>
    intro h
    rfl
  | cons t ts ih =>
    intro h
    obtain ⟨hne, hws⟩ := h t (List.mem_cons_self t ts)
    cases ts with
    | nil =>
      show splitWSAux (charJoin [t]) [] = [t]
      have hpre := splitWSAux_prepend t [] [] hws
      rw [List.append_nil] at hpre
      show splitWSAux t [] = [t]
      rw [hpre]
      unfold splitWSAux
      rw [if_neg (by simp [hne])]
      simp
    | cons t2 ts2 =>
      show splitWSAux (t ++ ' ' :: charJoin (t2 :: ts2)) [] = t :: t2 :: ts2
      rw [splitWSAux_prepend t _ [] hws]
      show splitWSAux (' ' :: charJoin (t2 :: ts2)) (t.reverse ++ []) = _
      unfold splitWSAux
      rw [if_pos (by rfl : (' ').isWhitespace = true)]
      rw [if_neg (by simp [hne])]
      rw [ih (fun t3 h3 => h t3 (List.mem_cons_of_mem t h3))]
      simp

theorem pySplit_joinSpace (ts : List String)
    (h : ∀ t ∈ ts, t.toList ≠ [] ∧ ∀ c ∈ t.toList, c.isWhitespace = false) :
    pySplit (joinSpace ts) = ts := by
  have hargs : ∀ t ∈ ts.map String.toList, t ≠ [] ∧ ∀ c ∈ t, c.isWhitespace = false := by
    intro t ht
    obtain ⟨s, hs, heq⟩ := List.mem_map.mp ht
    subst heq
    exact h s hs
  have hmap : ∀ us : List String, (us.map String.toList).map String.mk = us := by
    intro us
    induction us with
    | nil => rfl
    | cons u us ih =>
      show String.mk u.toList :: (us.map String.toList).map String.mk = u :: us
      rw [ih]
      rfl
  unfold pySplit
  rw [joinSpace_toList, splitWS_charJoin (ts.map String.toList) hargs]
  exact hmap ts

theorem pySplit_token_props (s : String) (t : String) (ht : t ∈ pySplit s) :
    t.toList ≠ [] ∧ ∀ c ∈ t.toList, c.isWhitespace = false := by
  unfold pySplit at ht
  obtain ⟨tl, htl, heq⟩ := List.mem_map.mp ht
  subst heq
  exact splitWSAux_tokens s.toList [] (by intro c hc; cases hc) tl htl

theorem pySplit_single (t : String) (hne : t.toList ≠ [])
    (hws : ∀ c ∈ t.toList, c.isWhitespace = false) : pySplit t = [t] := by
  have h := pySplit_joinSpace [t] ?harg
  · simpa [joinSpace] using h
  · intro x hx
    have heq : x = t := List.mem_singleton.mp hx
    subst heq
    exact ⟨hne, hws⟩

/-- Claim C9: `update_test_suites_from_pytest` skips a file whose
`"Suite Name"` splits into no tokens, but a file whose name is exactly one
token is not skipped: `name_split[1]` raises an uncaught `IndexError`,
aborting the entire synchronization pass. -/
theorem suite_sync_single_token_aborts
    (cfg : SyncConfig) (st : SyncState) (tf : TestFile) (rest : List TestFile) :
    ((pySplit tf.suiteName).length = 1 →
      (tf :: rest).foldlM (processFile cfg) st =
        Except.error "IndexError: list index out of range") ∧
    (pySplit tf.suiteName = [] → processFile cfg st tf = Except.ok st) := by
  constructor
  · intro h1
    have hx : ∃ x, pySplit tf.suiteName = [x] := by
      cases hs : pySplit tf.suiteName with
      | nil =>
        rw [hs] at h1
        cases h1
      | cons a l =>
        cases l with
        | nil => exact ⟨a, rfl⟩
        | cons b l2 =>
          rw [hs] at h1
          simp at h1
    obtain ⟨x, hx⟩ := hx
    have hpf : processFile cfg st tf =
        Except.error "IndexError: list index out of range" := by
      unfold processFile
      rw [hx]
    rw [List.foldlM_cons, hpf]
    rfl
  · intro h0
    unfold processFile
    rw [h0]

/-- Witness for C9: a file whose suite name is the single token `"solo"`
aborts the pass with the IndexError. -/
theorem suite_sync_single_token_aborts_witness :
    (pySplit "solo").length = 1 ∧
    ([⟨"solo", []⟩] : List TestFile).foldlM
        (processFile ⟨false, none, false⟩) (initSyncState [] 1 [] []) =
      Except.error "IndexError: list index out of range" :=
  ⟨by decide,
    (suite_sync_single_token_aborts ⟨false, none, false⟩ (initSyncState [] 1 [] [])
      ⟨"solo", []⟩ []).1 (by decide)⟩

/-! ## Memo-preservation lemmas for the synchronizer invariant -/

theorem mem_map_fst {l : List (String × Nat)} {a : String} :
    a ∈ l.map Prod.fst ↔ ∃ b, (a, b) ∈ l := by
  rw [List.mem_map]
  constructor
  · rintro ⟨p, hp, heq⟩
    subst heq
    exact ⟨p.2, hp⟩
  · rintro ⟨b, hb⟩
    exact ⟨(a, b), hb, rfl⟩

theorem nodup_map_fst_append (l : List (String × Nat)) (x : String × Nat)
    (hl : (l.map Prod.fst).Nodup) (hx : x.1 ∉ l.map Prod.fst) :
    ((l ++ [x]).map Prod.fst).Nodup := by
  rw [List.map_append, List.nodup_append]
  refine ⟨hl, List.nodup_singleton _, ?_⟩
  intro a ha hb
  have : a = x.1 := by simpa using hb
  subst this
  exact hx ha

/-- An update of the parent entry at key `p` that keeps the parent id and
every existing leaf id (with `known_suites` untouched) preserves every
memoized creation. -/
theorem createdMemo_update (st st2 : SyncState) (p : String) (peOld : ParentEntry)
    (pidNew : Nat) (leavesNew : List (String × LeafEntry))
    (hold : dget st.qaseNewDict p = some peOld)
    (hpid : pidNew = peOld.pid)
    (hleaf : ∀ m le, dget peOld.leaves m = some le →
      ∃ le2, dget leavesNew m = some le2 ∧ le2.leafId = le.leafId)
    (hknown : st2.knownSuites = st.knownSuites)
    (hdict : st2.qaseNewDict = dset st.qaseNewDict p ⟨pidNew, leavesNew⟩)
    (n : String) (i : Nat) (h : createdMemo st n i) : createdMemo st2 n i := by
  obtain ⟨hpos, hmemo⟩ := h
  refine ⟨hpos, ?_⟩
  rcases hmemo with ⟨hk, e, he, hpe⟩ | ⟨q, restT, hsplit, e, le, he, hle, hid⟩
  · left
    refine ⟨by rw [hknown]; exact hk, ?_⟩
    by_cases hn : n = p
    · subst hn
      rw [hold] at he
      have he2 : e = peOld := (Option.some.inj he).symm
      subst he2
      refine ⟨⟨pidNew, leavesNew⟩, by rw [hdict]; exact dget_dset_self _ _ _, ?_⟩
      show pidNew = i
      rw [hpid, hpe]
    · exact ⟨e, by rw [hdict]; rw [dget_dset_ne _ _ _ _ hn]; exact he, hpe⟩
  · right
    by_cases hq : q = p
    · subst hq
      rw [hold] at he
      have he2 : e = peOld := (Option.some.inj he).symm
      subst he2
      obtain ⟨le2, hle2, hid2⟩ := hleaf n le hle
      exact ⟨q, restT, hsplit,
        ⟨pidNew, leavesNew⟩, le2, by rw [hdict]; exact dget_dset_self _ _ _, hle2,
        by rw [hid2, hid]⟩
    · exact ⟨q, restT, hsplit, e, le,
        by rw [hdict]; rw [dget_dset_ne _ _ _ _ hq]; exact he, hle, hid⟩

/-- Inserting a parent entry at a key not present in `qase_new_dict`
preserves every memoized creation, provided `known_suites` is unchanged
outside that key. -/
theorem createdMemo_insert (st st2 : SyncState) (p : String) (pe : ParentEntry)
    (hnew : dmem st.qaseNewDict p = false)
    (hdict : st2.qaseNewDict = dset st.qaseNewDict p pe)
    (hknown : ∀ n, n ≠ p → dget st2.knownSuites n = dget st.knownSuites n)
    (n : String) (i : Nat) (h : createdMemo st n i) : createdMemo st2 n i := by
  obtain ⟨hpos, hmemo⟩ := h
  refine ⟨hpos, ?_⟩
  rcases hmemo with ⟨hk, e, he, hpe⟩ | ⟨q, restT, hsplit, e, le, he, hle, hid⟩
  · left
    have hn : n ≠ p := by
      intro heq
      subst heq
      rw [dget_eq_none_of_not_mem _ _ hnew] at he
      cases he
    exact ⟨(hknown n hn).trans hk,
      e, by rw [hdict]; rw [dget_dset_ne _ _ _ _ hn]; exact he, hpe⟩
  · right
    have hq : q ≠ p := by
      intro heq
      subst heq
      rw [dget_eq_none_of_not_mem _ _ hnew] at he
      cases he
    exact ⟨q, restT, hsplit, e, le,
      by rw [hdict]; rw [dget_dset_ne _ _ _ _ hq]; exact he, hle, hid⟩

/-- A created name that is a clean single token already has a parent entry
in `qase_new_dict`. -/
theorem created_parent_mem (st : SyncState) (hInv : SyncInv st) (p : String) (i : Nat)
    (hp : pySplit p = [p]) (hin : (p, i) ∈ st.created) :
    dmem st.qaseNewDict p = true := by
  obtain ⟨hpos, hmemo⟩ := hInv.2.2.2 (p, i) hin
  rcases hmemo with ⟨hk, e, he, hpe⟩ | ⟨q, restT, hsplit, e, le, he, hle, hid⟩
  · exact (dmem_iff_dget _ _).mpr ⟨e, he⟩
  · rw [hp] at hsplit
    have hq : p = q := (List.cons.injEq _ _ _ _).mp hsplit.symm |>.1.symm
    subst hq
    exact (dmem_iff_dget _ _).mpr ⟨e, he⟩

/-- In the leaf-resolution branch that is about to create (memoized leaf
absent, resolved id `0`), the leaf name cannot already have been created. -/
theorem created_leaf_not_new (st : SyncState) (hInv : SyncInv st)
    (parentSuite suiteName : String) (restT : List String) (pe : ParentEntry) (i : Nat)
    (hsplit : pySplit suiteName = parentSuite :: restT)
    (hpe : dget st.qaseNewDict parentSuite = some pe)
    (hnotleaf : dmem pe.leaves suiteName = false)
    (hsid : (if dmem st.knownSuites suiteName then
        (dget st.knownSuites suiteName).getD 0
      else findSuiteId st.qaseSuites suiteName) = 0)
    (hin : (suiteName, i) ∈ st.created) : False := by
  obtain ⟨hpos, hmemo⟩ := hInv.2.2.2 (suiteName, i) hin
  rcases hmemo with ⟨hk, e, he, hpe2⟩ | ⟨q, restT2, hsplit2, e, le, he, hle, hid⟩
  · have hmem : dmem st.knownSuites suiteName = true :=
      (dmem_iff_dget _ _).mpr ⟨i, hk⟩
    rw [if_pos hmem, hk] at hsid
    simp at hsid
    omega
  · rw [hsplit] at hsplit2
    have hq : parentSuite = q := ((List.cons.injEq _ _ _ _).mp hsplit2).1
    subst hq
    rw [hpe] at he
    have he2 : e = pe := (Option.some.inj he).symm
    subst he2
    rw [dget_eq_none_of_not_mem _ _ hnotleaf] at hle
    cases hle

/-- Resolving a parent suite preserves the invariant and leaves the parent
memoized in `qase_new_dict`. -/
theorem processParent_inv (cfg : SyncConfig) (st : SyncState) (p : String) (st2 : SyncState)
    (hInv : SyncInv st) (hp : pySplit p = [p])
    (h : processParent cfg st p = Except.ok st2) :
    SyncInv st2 ∧ dmem st2.qaseNewDict p = true := by
  obtain ⟨hA, hD, hN, hM⟩ := hInv
  simp only [processParent] at h
  by_cases hmem : dmem st.qaseNewDict p = true
  · rw [if_pos hmem] at h
    have hst : st = st2 := Except.ok.inj h
    subst hst
    exact ⟨⟨hA, hD, hN, hM⟩, hmem⟩
  · rw [if_neg hmem] at h
    have hmemf : dmem st.qaseNewDict p = false := by
      cases hcc : dmem st.qaseNewDict p
      · rfl
      · exact absurd hcc hmem
    by_cases hassert : cfg.assertParentSuite = true
    · rw [if_pos hassert] at h
      cases hkn : dget st.knownSuites p with
      | none =>
        simp only [hkn] at h
        cases h
      | some pid =>
        simp only [hkn] at h
        have hst : _ = st2 := Except.ok.inj h
        subst hst
        refine ⟨⟨hA, hD, hN, ?_⟩, ?_⟩
        · intro pr hpr
          refine createdMemo_insert st _ p ⟨pid, []⟩ hmemf ?_ ?_ pr.1 pr.2 (hM pr hpr)
          · rfl
          · intro n hn
            rfl
        · exact dmem_dset_self _ _ _
    · rw [if_neg hassert] at h
      by_cases hsid : findSuiteId st.qaseSuites p = 0
      · rw [if_pos hsid] at h
        simp only [createSuite] at h
        rw [dget_dset_self] at h
        have hst : _ = st2 := Except.ok.inj h
        subst hst
        have hnotin : p ∉ st.created.map Prod.fst := by
          intro hcon
          obtain ⟨j, hj⟩ := mem_map_fst.mp hcon
          have hmm := created_parent_mem st ⟨hA, hD, hN, hM⟩ p j hp hj
          rw [hmm] at hmemf
          cases hmemf
        refine ⟨⟨rfl, Nat.succ_pos _, ?_, ?_⟩, ?_⟩
        · exact nodup_map_fst_append st.created (p, st.nextId) hN hnotin
        · intro pr hpr
          rcases List.mem_append.mp hpr with hold | hnew
          · refine createdMemo_insert st _ p ⟨st.nextId, []⟩ hmemf ?_ ?_
              pr.1 pr.2 (hM pr hold)
            · rfl
            · intro n hn
              exact dget_dset_ne _ _ _ _ hn
          · have heq : pr = (p, st.nextId) := List.mem_singleton.mp hnew
            subst heq
            refine ⟨hD, Or.inl ⟨?_, ⟨st.nextId, []⟩, ?_, rfl⟩⟩
            · exact dget_dset_self _ _ _
            · exact dget_dset_self _ _ _
        · exact dmem_dset_self _ _ _
      · rw [if_neg hsid] at h
        cases hkn : dget st.knownSuites p with
        | none =>
          simp only [hkn] at h
          cases h
        | some pid =>
          simp only [hkn] at h
          have hst : _ = st2 := Except.ok.inj h
          subst hst
          refine ⟨⟨hA, hD, hN, ?_⟩, ?_⟩
          · intro pr hpr
            refine createdMemo_insert st _ p ⟨pid, []⟩ hmemf ?_ ?_ pr.1 pr.2 (hM pr hpr)
            · rfl
            · intro n hn
              rfl
          · exact dmem_dset_self _ _ _

/-- Resolving a leaf suite preserves the invariant. -/
theorem processLeaf_inv (st : SyncState) (parentSuite suiteName : String)
    (restT : List String) (st2 : SyncState)
    (hInv : SyncInv st) (hsplit : pySplit suiteName = parentSuite :: restT)
    (h : processLeaf st parentSuite suiteName = Except.ok st2) :
    SyncInv st2 := by
  obtain ⟨hA, hD, hN, hM⟩ := hInv
  simp only [processLeaf] at h
  cases hpe : dget st.qaseNewDict parentSuite with
  | none =>
    simp only [hpe] at h
    cases h
  | some pe =>
    simp only [hpe] at h
    by_cases hleafmem : dmem pe.leaves suiteName = true
    · rw [if_pos hleafmem] at h
      have hst : st = st2 := Except.ok.inj h
      subst hst
      exact ⟨hA, hD, hN, hM⟩
    · rw [if_neg hleafmem] at h
      have hleafmemf : dmem pe.leaves suiteName = false := by
        cases hc : dmem pe.leaves suiteName
        · rfl
        · exact absurd hc hleafmem
      by_cases hsid : (if dmem st.knownSuites suiteName then
          (dget st.knownSuites suiteName).getD 0
        else findSuiteId st.qaseSuites suiteName) = 0
      · rw [if_pos hsid] at h
        simp only [createSuite] at h
        have hst : _ = st2 := Except.ok.inj h
        subst hst
        have hnotin : suiteName ∉ st.created.map Prod.fst := by
          intro hcon
          obtain ⟨j, hj⟩ := mem_map_fst.mp hcon
          exact created_leaf_not_new st ⟨hA, hD, hN, hM⟩ parentSuite suiteName restT pe j
            hsplit hpe hleafmemf hsid hj
        refine ⟨rfl, Nat.succ_pos _, ?_, ?_⟩
        · exact nodup_map_fst_append st.created (suiteName, st.nextId) hN hnotin
        · intro pr hpr
          rcases List.mem_append.mp hpr with holdm | hnewm
          · refine createdMemo_update st _ parentSuite pe pe.pid
              (dset pe.leaves suiteName ⟨st.nextId, []⟩) hpe rfl ?_ ?_ ?_
              pr.1 pr.2 (hM pr holdm)
            · intro m le hm
              by_cases hmn : m = suiteName
              · subst hmn
                rw [dget_eq_none_of_not_mem _ _ hleafmemf] at hm
                cases hm
              · exact ⟨le, by rw [dget_dset_ne _ _ _ _ hmn]; exact hm, rfl⟩
            · rfl
            · rfl
          · have heq : pr = (suiteName, st.nextId) := List.mem_singleton.mp hnewm
            subst heq
            refine ⟨hD, Or.inr ⟨parentSuite, restT, hsplit, ?_⟩⟩
            exact ⟨⟨pe.pid, dset pe.leaves suiteName ⟨st.nextId, []⟩⟩, ⟨st.nextId, []⟩,
              dget_dset_self _ _ _, dget_dset_self _ _ _, rfl⟩
      · rw [if_neg hsid] at h
        have hst : _ = st2 := Except.ok.inj h
        subst hst
        refine ⟨hA, hD, hN, ?_⟩
        intro pr hpr
        refine createdMemo_update st _ parentSuite pe pe.pid
          (dset pe.leaves suiteName ⟨(if dmem st.knownSuites suiteName then
              (dget st.knownSuites suiteName).getD 0
            else findSuiteId st.qaseSuites suiteName), []⟩) hpe rfl ?_ ?_ ?_
          pr.1 pr.2 (hM pr hpr)
        · intro m le hm
          by_cases hmn : m = suiteName
          · subst hmn
            rw [dget_eq_none_of_not_mem _ _ hleafmemf] at hm
            cases hm
          · exact ⟨le, by rw [dget_dset_ne _ _ _ _ hmn]; exact hm, rfl⟩
        · rfl
        · rfl

/-- Processing one test case of a file preserves the invariant (it only
appends to a leaf's case list and to the `moved`/`warned` logs). -/
theorem processCase_inv (cfg : SyncConfig) (parentSuite suiteName : String)
    (st : SyncState) (tc : TFCase) (st2 : SyncState)
    (hInv : SyncInv st)
    (h : processCase cfg parentSuite suiteName st tc = Except.ok st2) :
    SyncInv st2 := by
  obtain ⟨hA, hD, hN, hM⟩ := hInv
  simp only [processCase] at h
  by_cases hid : tc.qaseId = 0
  · rw [if_pos hid] at h
    have hst : st = st2 := Except.ok.inj h
    subst hst
    exact ⟨hA, hD, hN, hM⟩
  · rw [if_neg hid] at h
    cases hpe : dget st.qaseNewDict parentSuite with
    | none =>
      simp only [hpe] at h
      cases h
    | some pe =>
      simp only [hpe] at h
      cases hle : dget pe.leaves suiteName with
      | none =>
        simp only [hle] at h
        cases h
      | some le =>
        simp only [hle] at h
        have hMid : SyncInv
            { st with
                qaseNewDict :=
                  dset st.qaseNewDict parentSuite
                    ⟨pe.pid, dset pe.leaves suiteName ⟨le.leafId, le.cases ++ [tc.qaseId]⟩⟩ } := by
          refine ⟨hA, hD, hN, ?_⟩
          intro pr hpr
          refine createdMemo_update st _ parentSuite pe pe.pid
            (dset pe.leaves suiteName ⟨le.leafId, le.cases ++ [tc.qaseId]⟩) hpe rfl ?_ ?_ ?_
            pr.1 pr.2 (hM pr hpr)
          · intro m le3 hm
            by_cases hmn : m = suiteName
            · subst hmn
              rw [hle] at hm
              have hle3 : le3 = le := (Option.some.inj hm).symm
              subst hle3
              exact ⟨⟨le3.leafId, le3.cases ++ [tc.qaseId]⟩, dget_dset_self _ _ _, rfl⟩
            · exact ⟨le3, by rw [dget_dset_ne _ _ _ _ hmn]; exact hm, rfl⟩
          · rfl
          · rfl
        cases hfind : st.qaseCases.find? (fun c => c.cid == tc.qaseId) with
        | none =>
          simp only [hfind] at h
          have hst : _ = st2 := Except.ok.inj h
          subst hst
          exact hMid
        | some qc =>
          simp only [hfind] at h
          by_cases hne : qc.suiteId ≠ some le.leafId
          · rw [if_pos hne] at h
            by_cases hmove : cfg.moveCases = true
            · rw [if_pos hmove] at h
              have hst : _ = st2 := Except.ok.inj h
              subst hst
              exact hMid
            · rw [if_neg hmove] at h
              have hst : _ = st2 := Except.ok.inj h
              subst hst
              exact hMid
          · rw [if_neg hne] at h
            have hst : _ = st2 := Except.ok.inj h
            subst hst
            exact hMid

theorem processCases_fold_inv (cfg : SyncConfig) (parentSuite suiteName : String) :
    ∀ (tcs : List TFCase) (st st2 : SyncState), SyncInv st →
      tcs.foldlM (processCase cfg parentSuite suiteName) st = Except.ok st2 →
      SyncInv st2 := by
  intro tcs
  induction tcs with
  | nil =>
    intro st st2 hInv h
    simp only [List.foldlM_nil] at h
    have hst : st = st2 := by simpa [pure, Except.pure] using h
    subst hst
    exact hInv
  | cons tc tcs ih =>
    intro st st2 hInv h
    rw [List.foldlM_cons] at h
    obtain ⟨mid, hmid, hrest⟩ := except_bind_ok _ _ _ h
    exact ih mid st2 (processCase_inv cfg parentSuite suiteName st tc mid hInv hmid) hrest

/-- Processing one pytest file preserves the invariant. -/
theorem processFile_inv (cfg : SyncConfig) (st : SyncState) (tf : TestFile)
    (st2 : SyncState) (hInv : SyncInv st)
    (h : processFile cfg st tf = Except.ok st2) : SyncInv st2 := by
  simp only [processFile] at h
  cases hs : pySplit tf.suiteName with
  | nil =>
    simp only [hs] at h
    have hst : st = st2 := Except.ok.inj h
    subst hst
    exact hInv
  | cons x ts =>
    cases ts with
    | nil =>
      simp only [hs] at h
      cases h
    | cons t1 rest =>
      simp only [hs] at h
      have ht1mem : t1 ∈ pySplit tf.suiteName := by
        rw [hs]
        exact List.mem_cons_of_mem x (List.mem_cons_self t1 rest)
      obtain ⟨ht1ne, ht1ws⟩ := pySplit_token_props tf.suiteName t1 ht1mem
      have ht1split : pySplit t1 = [t1] := pySplit_single t1 ht1ne ht1ws
      have hjoin : pySplit (joinSpace (t1 :: rest)) = t1 :: rest := by
        apply pySplit_joinSpace
        intro t ht
        apply pySplit_token_props tf.suiteName t
        rw [hs]
        exact List.mem_cons_of_mem x ht
      cases hp1 : processParent cfg st t1 with
      | error e =>
        simp only [hp1, Except.bind] at h
        cases h
      | ok st1 =>
        simp only [hp1, Except.bind] at h
        obtain ⟨hInv1, hmem1⟩ := processParent_inv cfg st t1 st1 hInv ht1split hp1
        cases hp2 : processLeaf st1 t1 (joinSpace (t1 :: rest)) with
        | error e =>
          simp only [hp2, Except.bind] at h
          cases h
        | ok stMid =>
          simp only [hp2, Except.bind] at h
          have hInv2 := processLeaf_inv st1 t1 (joinSpace (t1 :: rest)) rest stMid
            hInv1 hjoin hp2
          exact processCases_fold_inv cfg t1 (joinSpace (t1 :: rest))
            tf.testCases stMid st2 hInv2 h

theorem processFiles_fold_inv (cfg : SyncConfig) :
    ∀ (files : List TestFile) (st st2 : SyncState), SyncInv st →
      files.foldlM (processFile cfg) st = Except.ok st2 → SyncInv st2 := by
  intro files
  induction files with
  | nil =>
    intro st st2 hInv h
    simp only [List.foldlM_nil] at h
    have hst : st = st2 := by simpa [pure, Except.pure] using h
    subst hst
    exact hInv
  | cons tf files ih =>
    intro st st2 hInv h
    rw [List.foldlM_cons] at h
    obtain ⟨mid, hmid, hrest⟩ := except_bind_ok _ _ _ h
    exact ih mid st2 (processFile_inv cfg st tf mid hInv hmid) hrest

/-- Claim C8: in any successful run of `update_test_suites_from_pytest`
(starting from freshly fetched suites and an empty `qase_new_dict`, with
positive remote ids), the `qase_suites` snapshot equals the remote suite
list at the end (every creation is followed by a refresh before processing
continues), no suite name is ever passed to `create_qase_suite` twice, and
every created suite is recorded in the output index — as a parent entry or
as a leaf entry under its parent — with exactly the id the creation
returned, so subsequent files resolving the same name reuse that id. -/
theorem suite_sync_creation_visibility
    (cfg : SyncConfig) (files : List TestFile) (remoteSuites : List QSuite)
    (nextId : Nat) (qaseCases : List QCase) (knownSuites : List (String × Nat))
    (st2 : SyncState) (hpos : 0 < nextId)
    (h : update_test_suites_from_pytest cfg files remoteSuites nextId qaseCases knownSuites
        = Except.ok st2) :
    st2.qaseSuites = st2.remoteSuites ∧
    (st2.created.map Prod.fst).Nodup ∧
    ∀ p ∈ st2.created,
      (∃ e : ParentEntry, dget st2.qaseNewDict p.1 = some e ∧ e.pid = p.2) ∨
      (∃ q e le, dget st2.qaseNewDict q = some e ∧
        dget e.leaves p.1 = some le ∧ le.leafId = p.2) := by
  have hinit : SyncInv (initSyncState remoteSuites nextId qaseCases knownSuites) := by
    refine ⟨rfl, hpos, List.nodup_nil, ?_⟩
    intro pr hpr
    cases hpr
  have hfin := processFiles_fold_inv cfg files _ st2 hinit h
  obtain ⟨hA, hD, hN, hM⟩ := hfin
  refine ⟨hA, hN, ?_⟩
  intro p hp
  obtain ⟨hpos2, hmemo⟩ := hM p hp
  rcases hmemo with ⟨hk, e, he, hpe⟩ | ⟨q, restT, hsplit, e, le, he, hle, hid⟩
  · exact Or.inl ⟨e, he, hpe⟩
  · exact Or.inr ⟨q, e, le, he, hle, hid⟩

/-- Witness for C8: two files both named `"x Foo"` against an empty remote
store create suite `"Foo"` exactly once (id 1); in the final state the
snapshot equals the remote list and no name was created twice. -/
theorem suite_sync_creation_visibility_witness :
    0 < 1 ∧
    (⟨[⟨1, "Foo", none⟩], 2, [⟨1, "Foo", none⟩], [], [("Foo", 1)],
        [("Foo", ⟨1, [("Foo", ⟨1, []⟩)]⟩)], [("Foo", 1)], [], []⟩ :
          SyncState).qaseSuites =
      (⟨[⟨1, "Foo", none⟩], 2, [⟨1, "Foo", none⟩], [], [("Foo", 1)],
        [("Foo", ⟨1, [("Foo", ⟨1, []⟩)]⟩)], [("Foo", 1)], [], []⟩ :
          SyncState).remoteSuites ∧
    ((⟨[⟨1, "Foo", none⟩], 2, [⟨1, "Foo", none⟩], [], [("Foo", 1)],
        [("Foo", ⟨1, [("Foo", ⟨1, []⟩)]⟩)], [("Foo", 1)], [], []⟩ :
          SyncState).created.map Prod.fst).Nodup :=
  ⟨Nat.one_pos,
    (suite_sync_creation_visibility ⟨false, none, false⟩
      [⟨"x Foo", []⟩, ⟨"x Foo", []⟩] [] 1 [] []
      ⟨[⟨1, "Foo", none⟩], 2, [⟨1, "Foo", none⟩], [], [("Foo", 1)],
        [("Foo", ⟨1, [("Foo", ⟨1, []⟩)]⟩)], [("Foo", 1)], [], []⟩
      Nat.one_pos rfl).1,
    (suite_sync_creation_visibility ⟨false, none, false⟩
      [⟨"x Foo", []⟩, ⟨"x Foo", []⟩] [] 1 [] []
      ⟨[⟨1, "Foo", none⟩], 2, [⟨1, "Foo", none⟩], [], [("Foo", 1)],
        [("Foo", ⟨1, [("Foo", ⟨1, []⟩)]⟩)], [("Foo", 1)], [], []⟩
      Nat.one_pos rfl).2.1⟩
